import Mathlib

/-!
Verification of the boltdb-explorer traversal / pagination / search / mutation
engine (the Go helper binaries under `go/internal` plus the write, export and
common packages).  Keys, values and bucket names are byte strings, modelled as
`List Nat`; the hierarchical store is a list of key/entry pairs where an entry
is either a value or a nested bucket, exactly the view the bbolt primitives
expose (per-bucket ordered cursor with `seek`, `next`, `first`).
-/

namespace BoltExplorer

/-- Byte-wise strict ordering of byte strings, as Go's `<` / `>` on `string`. -/
def keyLt : List Nat → List Nat → Bool
  | [], [] => false
  | [], _ :: _ => true
  | _ :: _, [] => false
  | a :: as, b :: bs => if a < b then true else if b < a then false else keyLt as bs

/-- `startsWithB p s` is Go's `strings.HasPrefix(s, p)` on byte strings. -/
def startsWithB : List Nat → List Nat → Bool
  | [], _ => true
  | _ :: _, [] => false
  | a :: as, b :: bs => a == b && startsWithB as bs

/-- `containsB q s` is Go's `strings.Contains(s, q)` on byte strings. -/
def containsB (q : List Nat) : List Nat → Bool
  | [] => q.isEmpty
  | b :: bs => startsWithB q (b :: bs) || containsB q bs

/-- Case folding of one byte; agrees with Go's `strings.ToLower` on ASCII input
(the only case folding exercised by the spec's properties). -/
def toLowerByte (b : Nat) : Nat :=
  if 65 ≤ b ∧ b ≤ 90 then b + 32 else b

def lowerBytes (s : List Nat) : List Nat := s.map toLowerByte

/-- An entry of a bucket: an opaque byte value, or a nested bucket
(a bucket being its ordered list of key/entry pairs). -/
inductive Entry : Type where
  | val (bytes : List Nat)
  | bkt (entries : List (List Nat × Entry))

abbrev EntryList := List (List Nat × Entry)

/-- First entry stored under a key (keys are unique in a well-formed bucket). -/
def lookupEnt : EntryList → List Nat → Option Entry
  | [], _ => none
  | (k', e) :: rest, k => if k' = k then some e else lookupEnt rest k

/-- `Bucket.Bucket(name)` / `Tx.Bucket(name)`: the nested bucket stored under
`name`, or `none` when the key is absent or holds a plain value. -/
def lookupB (l : EntryList) (k : List Nat) : Option EntryList :=
  match lookupEnt l k with
  | some (.bkt sub) => some sub
  | _ => none

/-- The descent loop of `common.BucketAtPath`: look up each segment in turn,
failing as soon as a segment does not resolve to a bucket. -/
def getAtPath (l : EntryList) : List (List Nat) → Option EntryList
  | [] => some l
  | p :: rest =>
    match lookupB l p with
    | none => none
    | some sub => getAtPath sub rest

/-- `common.BucketAtPath`.  The function unconditionally indexes `path[0]`, so
on the empty path it goes out of bounds: that is the outer `none` (a Go panic).
On a non-empty path the inner option is the possibly-nil bucket handle. -/
def bucketAtPath (l : EntryList) : List (List Nat) → Option (Option EntryList)
  | [] => none
  | p :: rest => some (getAtPath l (p :: rest))

/-- Replace the first entry stored under `k` (used to model in-place mutation
of a bucket reached through a handle). -/
def replaceEnt : EntryList → List Nat → Entry → EntryList
  | [], _, _ => []
  | (k', e') :: rest, k, e =>
    if k' = k then (k, e) :: rest else (k', e') :: replaceEnt rest k e

/-- Write a mutated bucket back along a resolved path: bbolt mutates the node
reached through the handle, which functionally is replacement along the path. -/
def writeBackB (l : EntryList) : List (List Nat) → EntryList → EntryList
  | [], nb => nb
  | p :: rest, nb =>
    match lookupB l p with
    | none => l
    | some sub => replaceEnt l p (Entry.bkt (writeBackB sub rest nb))

/-- Ordered insert-or-replace of a key, preserving the cursor order bbolt
maintains. -/
def insE : EntryList → List Nat → Entry → EntryList
  | [], k, e => [(k, e)]
  | (k', e') :: rest, k, e =>
    if k = k' then (k, e) :: rest
    else if keyLt k k' then (k, e) :: (k', e') :: rest
    else (k', e') :: insE rest k e

/-- Remove the (unique) entry stored under `k`, if present. -/
def removeKey : EntryList → List Nat → EntryList
  | [], _ => []
  | (k', e) :: rest, k => if k' = k then rest else (k', e) :: removeKey rest k

/-- `Bucket.Get(key)`: `none` when the key is absent or holds a nested bucket. -/
def bucketGet (b : EntryList) (k : List Nat) : Option (List Nat) :=
  match lookupEnt b k with
  | some (.val v) => some v
  | _ => none

/-! ## Listing engine (`internal/listkeys/lsk.go`) -/

structure LskItem where
  key : List Nat
  valueSize : Nat
  isBucket : Bool
  deriving DecidableEq

structure LskResult where
  items : List LskItem
  nextAfterKey : Option (List Nat)
  approxReturned : Nat
  deriving DecidableEq

/-- Size reported for a bucket entry: `len(v)` for a value, `0` for a nested
bucket (whose cursor value is nil). -/
def entrySize : Entry → Nat
  | .val v => v.length
  | .bkt _ => 0

def entryIsBkt : Entry → Bool
  | .val _ => false
  | .bkt _ => true

/-- The cursor loop of the bucket branch of `lsk.go Run`: skip keys failing the
prefix filter, break recording the first excluded key once `limit` items are
collected. -/
def collectKeys (pfx : List Nat) (limit : Nat) :
    EntryList → Nat → List LskItem × Option (List Nat)
  | [], _ => ([], none)
  | (k, e) :: rest, count =>
    if pfx ≠ [] && !startsWithB pfx k then collectKeys pfx limit rest count
    else if limit ≤ count then ([], some k)
    else
      let r := collectKeys pfx limit rest (count + 1)
      (⟨k, entrySize e, entryIsBkt e⟩ :: r.1, r.2)

/-- One page of the bucket branch of `lsk.go Run`: on resumption `Seek` lands on
the first key `≥ afterKey` and, whenever it landed anywhere, the cursor is
advanced one step before collecting; `NextAfterKey` is reported only when
exactly `limit` items were collected and the recorded key is non-empty. -/
def lskBucketPage (b : EntryList) (pfx : List Nat) (limit : Nat)
    (afterKey : Option (List Nat)) : List LskItem × Option (List Nat) :=
  let startList :=
    match afterKey with
    | none => b
    | some ak =>
      match b.dropWhile (fun kv => keyLt kv.1 ak) with
      | [] => []
      | _ :: t => t
  let r := collectKeys pfx limit startList 0
  let finalNak :=
    match r.2 with
    | some k => if r.1.length = limit ∧ k ≠ [] then some k else none
    | none => none
  (r.1, finalNak)

/-- The root-branch collection loop of `lsk.go Run`: iterate bucket
name/size pairs, skipping prefix mismatches, while fewer than `limit`
items have been collected. -/
def rootCollect (pfx : List Nat) (limit : Nat) :
    List (List Nat × Nat) → Nat → List LskItem
  | [], _ => []
  | (n, sz) :: rest, count =>
    if count < limit then
      if pfx ≠ [] && !startsWithB pfx n then rootCollect pfx limit rest count
      else ⟨n, sz, true⟩ :: rootCollect pfx limit rest (count + 1)
    else []

/-- The root branch of `lsk.go Run`: gather every top-level bucket with its
eagerly-counted size, find the start index as the first name strictly greater
than the resumption key (falling back to 0 when no name qualifies), collect up
to `limit` items, and report `allBuckets[startIdx+count]` as `NextAfterKey`
when that index is in range. -/
def lskRoot (st : EntryList) (pfx : List Nat) (limit : Nat)
    (afterKey : Option (List Nat)) : LskResult :=
  let allB : List (List Nat × Nat) :=
    st.filterMap fun kv =>
      match kv.2 with
      | .bkt sub => some (kv.1, sub.length)
      | .val _ => none
  let startIdx :=
    match afterKey with
    | none => 0
    | some ak =>
      match allB.findIdx? (fun nb => keyLt ak nb.1) with
      | some i => i
      | none => 0
  let items := rootCollect pfx limit (allB.drop startIdx) 0
  let nak :=
    match allB.get? (startIdx + items.length) with
    | some nb => some nb.1
    | none => none
  ⟨items, nak, items.length⟩

/-- `lsk.go Run` inside its `db.View`.  The outer `none` is the Go panic of
`BucketAtPath` on an empty path (never reached: the root branch is taken
first); a failed resolution returns an error that `Run` discards, printing the
zero-valued result. -/
def lskRun (st : EntryList) (path : List (List Nat)) (pfx : List Nat)
    (limit : Nat) (afterKey : Option (List Nat)) : Option LskResult :=
  if path.isEmpty then some (lskRoot st pfx limit afterKey)
  else
    match bucketAtPath st path with
    | none => none
    | some none => some ⟨[], none, 0⟩
    | some (some b) =>
      let r := lskBucketPage b pfx limit afterKey
      some ⟨r.1, r.2, r.1.length⟩

/-- Chained pagination: call the bucket page repeatedly, feeding back the
returned `NextAfterKey` until none is returned (fuel bounds the recursion). -/
def lskChain (b : EntryList) (limit : Nat) :
    Nat → Option (List Nat) → List LskItem
  | 0, _ => []
  | fuel + 1, ak =>
    let r := lskBucketPage b [] limit ak
    match r.2 with
    | none => r.1
    | some k => r.1 ++ lskChain b limit fuel (some k)

/-! ## Value accessor (`get.Run` in `internal/search/search.go`'s companion) -/

structure HeadResult where
  totalSize : Nat
  headBytes : List Nat
  deriving DecidableEq

/-- `get.Run` in head mode.  The transaction callback rejects the empty path
("cannot get values at root level") and a failed resolution, but `Run` discards
the `db.View` error, so `val`/`total` keep their zero values and a success
payload is printed in every case.  The outer `none` is the `BucketAtPath`
panic on an empty path (unreachable: guarded by the root branch). -/
def getRun (st : EntryList) (path : List (List Nat)) (k : List Nat) (n : Nat) :
    Option HeadResult :=
  let view : Option (Except String (Option (List Nat))) :=
    if path.isEmpty then some (.error "cannot get values at root level, only buckets")
    else
      match bucketAtPath st path with
      | none => none
      | some none => some (.error "bucket not found")
      | some (some b) => some (.ok (bucketGet b k))
  match view with
  | none => none
  | some r =>
    let val : Option (List Nat) := match r with | .ok v => v | .error _ => none
    let total := match val with | some v => v.length | none => 0
    let headB :=
      match val with
      | some v => if n < v.length then v.take n else v
      | none => []
    some ⟨total, headB⟩

/-! ## Mutation engine (`write` package) -/

/-- Classified errors: `msg` for the wrapper's own `fmt.Errorf` messages, the
rest are the underlying store's errors, surfaced unchanged. -/
inductive WErr : Type where
  | msg (s : String)
  | keyRequired
  | bucketNameRequired
  | bucketExists
  | incompatibleValue
  | bucketNotFound
  deriving DecidableEq

/-- The store primitive `Bucket.CreateBucket` / `Tx.CreateBucket`: rejects an
empty name, an existing bucket of that name (`ErrBucketExists`) and an existing
value of that name (`ErrIncompatibleValue`); otherwise inserts an empty bucket
in key order. -/
def createE (b : EntryList) (name : List Nat) : Except WErr EntryList :=
  if name = [] then .error .bucketNameRequired
  else
    match lookupEnt b name with
    | some (.bkt _) => .error .bucketExists
    | some (.val _) => .error .incompatibleValue
    | none => .ok (insE b name (Entry.bkt []))

/-- The store primitive `Bucket.Put`: rejects an empty key and a key already
holding a nested bucket (`ErrIncompatibleValue`); otherwise inserts or
overwrites in key order. -/
def putE (b : EntryList) (k v : List Nat) : Except WErr EntryList :=
  if k = [] then .error .keyRequired
  else
    match lookupEnt b k with
    | some (.bkt _) => .error .incompatibleValue
    | _ => .ok (insE b k (Entry.val v))

/-- The store primitive `Bucket.Delete`: an absent key is a no-op success, a
key holding a nested bucket is `ErrIncompatibleValue`, a value key is removed. -/
def delE (b : EntryList) (k : List Nat) : Except WErr EntryList :=
  match lookupEnt b k with
  | none => .ok b
  | some (.bkt _) => .error .incompatibleValue
  | some (.val _) => .ok (removeKey b k)

/-- The store primitive `Bucket.DeleteBucket` / `Tx.DeleteBucket`: absent name
is `ErrBucketNotFound`, a value of that name is `ErrIncompatibleValue`, a
bucket is removed with its whole subtree. -/
def delBkt (b : EntryList) (name : List Nat) : Except WErr EntryList :=
  match lookupEnt b name with
  | none => .error .bucketNotFound
  | some (.val _) => .error .incompatibleValue
  | some (.bkt _) => .ok (removeKey b name)

/-- `write.createBucket`: depth 1 creates at root, otherwise the parent path
(all but the last segment) is resolved with `BucketAtPath` and the last
segment is created inside it; a nil parent handle is "parent bucket not
found", store errors are returned unchanged. -/
def createBucket (st : EntryList) (segs : List (List Nat)) :
    Option (Except WErr EntryList) :=
  match segs with
  | [] => some (.error (.msg "bucket path required"))
  | [n] => some (createE st n)
  | p :: q :: rest =>
    let name := (q :: rest).getLastD q
    let parent := p :: (q :: rest).dropLast
    match bucketAtPath st parent with
    | none => none
    | some none => some (.error (.msg "parent bucket not found"))
    | some (some pb) =>
      match createE pb name with
      | .error e => some (.error e)
      | .ok pb' => some (.ok (writeBackB st parent pb'))

/-- `write.putKeyValue`: requires a non-empty key and value (an empty base64
argument is rejected before the transaction), rejects the empty path, resolves
the bucket and calls `Put` on the handle. -/
def putKeyValue (st : EntryList) (path : List (List Nat)) (k v : List Nat) :
    Option (Except WErr EntryList) :=
  if k = [] then some (.error (.msg "key required"))
  else if v = [] then some (.error (.msg "value required"))
  else if path.isEmpty then some (.error (.msg "cannot put key-value at root level"))
  else
    match bucketAtPath st path with
    | none => none
    | some none => some (.error (.msg "bucket not found"))
    | some (some b) =>
      match putE b k v with
      | .error e => some (.error e)
      | .ok b' => some (.ok (writeBackB st path b'))

/-- `write.deleteKey`: requires a non-empty key, rejects the empty path,
resolves the bucket and calls `Delete` on the handle. -/
def deleteKey (st : EntryList) (path : List (List Nat)) (k : List Nat) :
    Option (Except WErr EntryList) :=
  if k = [] then some (.error (.msg "key required"))
  else if path.isEmpty then some (.error (.msg "cannot delete key at root level"))
  else
    match bucketAtPath st path with
    | none => none
    | some none => some (.error (.msg "bucket not found"))
    | some (some b) =>
      match delE b k with
      | .error e => some (.error e)
      | .ok b' => some (.ok (writeBackB st path b'))

/-- `write.deleteBucket`: symmetric to `createBucket`. -/
def deleteBucket (st : EntryList) (segs : List (List Nat)) :
    Option (Except WErr EntryList) :=
  match segs with
  | [] => some (.error (.msg "bucket path required"))
  | [n] => some (delBkt st n)
  | p :: q :: rest =>
    let name := (q :: rest).getLastD q
    let parent := p :: (q :: rest).dropLast
    match bucketAtPath st parent with
    | none => none
    | some none => some (.error (.msg "parent bucket not found"))
    | some (some pb) =>
      match delBkt pb name with
      | .error e => some (.error e)
      | .ok pb' => some (.ok (writeBackB st parent pb'))

/-! ## Export engine (`export` package) -/

structure ExpRow where
  path : List (List Nat)
  key : List Nat
  value : List Nat
  deriving DecidableEq

/-- Bytes written for an entry's value: nested buckets have a nil cursor value,
encoded as the empty byte string. -/
def entryBytes : Entry → List Nat
  | .val v => v
  | .bkt _ => []

/-- The cursor loop of `export.Run`: one row per direct entry passing the
prefix filter, in cursor order; no recursion into nested buckets. -/
def rowsOf (path : List (List Nat)) (pfx : List Nat) (b : EntryList) :
    List ExpRow :=
  b.filterMap fun kv =>
    if pfx ≠ [] && !startsWithB pfx kv.1 then none
    else some ⟨path, kv.1, entryBytes kv.2⟩

/-- `export.Run` inside its `db.View`.  An empty path uses the root bucket's
own cursor; a failed resolution aborts the walk but `Run` discards the error
and still reports success, so the observable output is the (empty) row list. -/
def exportRun (st : EntryList) (path : List (List Nat)) (pfx : List Nat) :
    Option (List ExpRow) :=
  if path.isEmpty then some (rowsOf [] pfx st)
  else
    match bucketAtPath st path with
    | none => none
    | some none => some []
    | some (some b) => some (rowsOf path pfx b)

/-! ## Search engine (`internal/search/search.go`) -/

structure SItem where
  path : List (List Nat)
  key : List Nat
  valueSize : Nat
  isBucket : Bool
  typ : String
  deriving DecidableEq

structure SState where
  items : List SItem
  count : Nat
  deriving DecidableEq

structure SearchRes where
  items : List SItem
  total : Nat
  limited : Bool
  deriving DecidableEq

def mkSItem (path : List (List Nat)) (k : List Nat) : Entry → SItem
  | .val v => ⟨path, k, v.length, false, "key"⟩
  | .bkt _ => ⟨path, k, 0, true, "bucket"⟩

/-- Does the (already case-folded) query match this key? -/
def matchesQ (cs : Bool) (q k : List Nat) : Bool :=
  containsB q (if cs then k else lowerBytes k)

/-- `searchInBucket`: for each entry, skip all work once the running count has
reached the limit; record a match; recurse into a nested bucket only while the
count is still below the limit. -/
def searchL (n : Nat) (q : List Nat) (cs : Bool) :
    EntryList → List (List Nat) → SState → SState
  | [], _, s => s
  | (k, Entry.val v) :: rest, path, s =>
    searchL n q cs rest path
      (if n ≤ s.count then s
       else if matchesQ cs q k then
         ⟨s.items ++ [mkSItem path k (Entry.val v)], s.count + 1⟩
       else s)
  | (k, Entry.bkt sub) :: rest, path, s =>
    searchL n q cs rest path
      (if n ≤ s.count then s
       else
         let s1 : SState :=
           if matchesQ cs q k then
             ⟨s.items ++ [mkSItem path k (Entry.bkt sub)], s.count + 1⟩
           else s
         if s1.count < n then searchL n q cs sub (path ++ [k]) s1 else s1)
  termination_by l _ _ => sizeOf l
  decreasing_by
    · simp only [List.cons.sizeOf_spec]
      omega
    · simp only [Prod.mk.sizeOf_spec, List.cons.sizeOf_spec, Entry.bkt.sizeOf_spec]
      omega
    · simp only [List.cons.sizeOf_spec]
      omega

/-- The root branch of `searchRecursive`: every top-level entry name is tested
(reported as a bucket item with size 0), and each bucket is recursed into
while the count is below the limit. -/
def searchRoot (n : Nat) (q : List Nat) (cs : Bool) :
    EntryList → SState → SState
  | [], s => s
  | (k, Entry.val _) :: rest, s =>
    searchRoot n q cs rest
      (if n ≤ s.count then s
       else if matchesQ cs q k then
         ⟨s.items ++ [⟨[], k, 0, true, "bucket"⟩], s.count + 1⟩
       else s)
  | (k, Entry.bkt sub) :: rest, s =>
    searchRoot n q cs rest
      (if n ≤ s.count then s
       else
         let s1 : SState :=
           if matchesQ cs q k then
             ⟨s.items ++ [⟨[], k, 0, true, "bucket"⟩], s.count + 1⟩
           else s
         if s1.count < n then searchL n q cs sub [k] s1 else s1)

/-- `search.Run`: fold the query unless case-sensitive, traverse from the root,
report `total = len(items)` and `limited = (len(items) >= limit)`. -/
def searchRun (st : EntryList) (q : List Nat) (n : Nat) (cs : Bool) : SearchRes :=
  let q' := if cs then q else lowerBytes q
  let s := searchRoot n q' cs st ⟨[], 0⟩
  ⟨s.items, s.items.length, decide (n ≤ s.items.length)⟩

/-- `searchRecursive` with an explicit starting path: the empty path takes the
root branch, otherwise the path is resolved with `BucketAtPath` (a nil handle
is silently ignored).  The outer `none` is the `BucketAtPath` panic on the
empty path, unreachable because of the branch. -/
def searchRecursiveM (st : EntryList) (path : List (List Nat)) (q : List Nat)
    (n : Nat) (cs : Bool) (s : SState) : Option SState :=
  if path.isEmpty then some (searchRoot n q cs st s)
  else
    match bucketAtPath st path with
    | none => none
    | some none => some s
    | some (some b) => some (searchL n q cs b path s)

/-- Unbounded pre-order match collection over one bucket's subtree: the
reference traversal used to state that the limit cutoff is prompt (the bounded
search returns exactly a prefix of this sequence). -/
def collectAllMatches (q : List Nat) (cs : Bool) :
    EntryList → List (List Nat) → List SItem
  | [], _ => []
  | (k, Entry.val v) :: rest, path =>
    (if matchesQ cs q k then [mkSItem path k (Entry.val v)] else []) ++
    collectAllMatches q cs rest path
  | (k, Entry.bkt sub) :: rest, path =>
    (if matchesQ cs q k then [mkSItem path k (Entry.bkt sub)] else []) ++
    (collectAllMatches q cs sub (path ++ [k]) ++
     collectAllMatches q cs rest path)
  termination_by l _ => sizeOf l
  decreasing_by
    · simp only [List.cons.sizeOf_spec]
      omega
    · simp only [Prod.mk.sizeOf_spec, List.cons.sizeOf_spec, Entry.bkt.sizeOf_spec]
      omega
    · simp only [List.cons.sizeOf_spec]
      omega

/-- Unbounded pre-order match collection from the root. -/
def collectAllRoot (q : List Nat) (cs : Bool) : EntryList → List SItem
  | [] => []
  | (k, Entry.val _) :: rest =>
    (if matchesQ cs q k then [⟨[], k, 0, true, "bucket"⟩] else []) ++
    collectAllRoot q cs rest
  | (k, Entry.bkt sub) :: rest =>
    (if matchesQ cs q k then [⟨[], k, 0, true, "bucket"⟩] else []) ++
    (collectAllMatches q cs sub [k] ++
     collectAllRoot q cs rest)

/-- Appending to the accumulator the first `n - count` items of a match block:
the shape every phase of the bounded search produces (used to characterise the
prompt limit cutoff). -/
def stepTake (n : Nat) (M : List SItem) (s : SState) : SState :=
  ⟨s.items ++ M.take (n - s.count), s.count + min (n - s.count) M.length⟩

/-- Is this optional entry a nested bucket?  (Decidable form of the
side condition of the amended delete-entry property.) -/
def entryIsBktO : Option Entry → Bool
  | some (.bkt _) => true
  | _ => false

/-! ## Association-list and path lemmas -/

theorem lookupB_eq_some (l : EntryList) (p : List Nat) (sub : EntryList)
    (h : lookupB l p = some sub) : lookupEnt l p = some (Entry.bkt sub) := by
  unfold lookupB at h
  cases he : lookupEnt l p with
  | none => rw [he] at h; exact absurd h (by simp)
  | some e =>
    cases e with
    | val v => rw [he] at h; exact absurd h (by simp)
    | bkt s => rw [he] at h; simp at h; subst h; rfl

theorem lookupEnt_replaceEnt_self (l : EntryList) (k : List Nat) (e e0 : Entry)
    (h : lookupEnt l k = some e0) : lookupEnt (replaceEnt l k e) k = some e := by
  induction l with
  | nil => simp [lookupEnt] at h
  | cons kv rest ih =>
    obtain ⟨k', e'⟩ := kv
    by_cases hk : k' = k
    · simp [replaceEnt, lookupEnt, hk]
    · simp [replaceEnt, lookupEnt, hk] at h ⊢
      exact ih h

theorem replaceEnt_self (l : EntryList) (k : List Nat) (e : Entry)
    (h : lookupEnt l k = some e) : replaceEnt l k e = l := by
  induction l with
  | nil => simp [lookupEnt] at h
  | cons kv rest ih =>
    obtain ⟨k', e'⟩ := kv
    by_cases hk : k' = k
    · simp [lookupEnt, hk] at h
      simp [replaceEnt, hk, ← h]
    · simp [lookupEnt, hk] at h
      simp [replaceEnt, hk, ih h]

theorem lookupEnt_insE_self (l : EntryList) (k : List Nat) (e : Entry) :
    lookupEnt (insE l k e) k = some e := by
  induction l with
  | nil => simp [insE, lookupEnt]
  | cons kv rest ih =>
    obtain ⟨k', e'⟩ := kv
    by_cases hk : k = k'
    · simp [insE, hk, lookupEnt]
    · by_cases hlt : keyLt k k' = true
      · simp [insE, hk, hlt, lookupEnt]
      · rw [insE, if_neg hk, if_neg hlt, lookupEnt,
          if_neg (fun hkk => hk hkk.symm)]
        exact ih

theorem lookupEnt_eq_none_iff (l : EntryList) (k : List Nat) :
    lookupEnt l k = none ↔ k ∉ l.map Prod.fst := by
  induction l with
  | nil => simp [lookupEnt]
  | cons kv rest ih =>
    obtain ⟨k', e'⟩ := kv
    rw [lookupEnt]
    by_cases hk : k' = k
    · simp [hk]
    · rw [if_neg hk, List.map_cons]
      simp only [List.mem_cons]
      rw [ih]
      constructor
      · intro hn hc
        rcases hc with hc | hc
        · exact hk hc.symm
        · exact hn hc
      · intro hn
        exact fun hm => hn (Or.inr hm)

theorem lookupEnt_removeKey_self (l : EntryList) (k : List Nat)
    (hnd : (l.map Prod.fst).Nodup) : lookupEnt (removeKey l k) k = none := by
  induction l with
  | nil => simp [removeKey, lookupEnt]
  | cons kv rest ih =>
    obtain ⟨k', e'⟩ := kv
    simp only [List.map_cons, List.nodup_cons] at hnd
    by_cases hk : k' = k
    · rw [removeKey, if_pos hk]
      rw [lookupEnt_eq_none_iff]
      rw [hk] at hnd
      exact hnd.1
    · rw [removeKey, if_neg hk, lookupEnt, if_neg hk]
      exact ih hnd.2

theorem removeKey_of_absent (l : EntryList) (k : List Nat)
    (h : lookupEnt l k = none) : removeKey l k = l := by
  induction l with
  | nil => simp [removeKey]
  | cons kv rest ih =>
    obtain ⟨k', e'⟩ := kv
    by_cases hk : k' = k
    · simp [lookupEnt, hk] at h
    · simp [lookupEnt, hk] at h
      simp [removeKey, hk, ih h]

theorem getAtPath_writeBack (path : List (List Nat)) :
    ∀ (l b nb : EntryList), getAtPath l path = some b →
      getAtPath (writeBackB l path nb) path = some nb := by
  induction path with
  | nil => intro l b nb _; simp [getAtPath, writeBackB]
  | cons p rest ih =>
    intro l b nb h
    rw [getAtPath] at h
    cases hl : lookupB l p with
    | none => rw [hl] at h; exact absurd h (by simp)
    | some sub =>
      rw [hl] at h
      rw [writeBackB, hl]
      have hent := lookupB_eq_some l p sub hl
      have hrep := lookupEnt_replaceEnt_self l p
        (Entry.bkt (writeBackB sub rest nb)) (Entry.bkt sub) hent
      rw [getAtPath]
      rw [show lookupB (replaceEnt l p (Entry.bkt (writeBackB sub rest nb))) p
            = some (writeBackB sub rest nb) by rw [lookupB, hrep]]
      exact ih sub b nb h

theorem writeBackB_self (path : List (List Nat)) :
    ∀ (l b : EntryList), getAtPath l path = some b → writeBackB l path b = l := by
  induction path with
  | nil => intro l b h; simp [getAtPath] at h; simp [writeBackB, h]
  | cons p rest ih =>
    intro l b h
    rw [getAtPath] at h
    cases hl : lookupB l p with
    | none => rw [hl] at h; exact absurd h (by simp)
    | some sub =>
      rw [hl] at h
      change getAtPath sub rest = some b at h
      rw [writeBackB, hl]
      show replaceEnt l p (Entry.bkt (writeBackB sub rest b)) = l
      rw [ih sub b h]
      exact replaceEnt_self l p (Entry.bkt sub) (lookupB_eq_some l p sub hl)

theorem mem_map_fst_of_mem_dropWhile {α β : Type} (p : α × β → Bool)
    (l : List (α × β)) (x : α) (h : x ∈ (l.dropWhile p).map Prod.fst) :
    x ∈ l.map Prod.fst := by
  induction l with
  | nil => simp [List.dropWhile] at h
  | cons kv rest ih =>
    rw [List.dropWhile] at h
    cases hp : p kv with
    | true =>
      rw [hp] at h
      change x ∈ List.map Prod.fst (List.dropWhile p rest) at h
      simp only [List.map_cons, List.mem_cons]
      exact Or.inr (ih h)
    | false =>
      rw [hp] at h
      change x ∈ List.map Prod.fst (kv :: rest) at h
      exact h

theorem collectKeys_key_mem (pfx : List Nat) (limit : Nat) :
    ∀ (l : EntryList) (c : Nat) (li : LskItem),
      li ∈ (collectKeys pfx limit l c).1 → li.key ∈ l.map Prod.fst := by
  intro l
  induction l with
  | nil => intro c li h; simp [collectKeys] at h
  | cons kv rest ih =>
    intro c li h
    obtain ⟨k, e⟩ := kv
    rw [collectKeys] at h
    by_cases h1 : (pfx ≠ [] && !startsWithB pfx k) = true
    · rw [if_pos h1] at h
      simp only [List.map_cons, List.mem_cons]
      exact Or.inr (ih c li h)
    · rw [if_neg h1] at h
      by_cases h2 : limit ≤ c
      · rw [if_pos h2] at h; simp at h
      · rw [if_neg h2] at h
        simp only [List.mem_cons] at h
        rcases h with h | h
        · simp [h]
        · simp only [List.map_cons, List.mem_cons]
          exact Or.inr (ih (c + 1) li h)

theorem lskBucketPage_key_mem (b : EntryList) (pfx : List Nat) (limit : Nat)
    (ak : Option (List Nat)) (li : LskItem)
    (h : li ∈ (lskBucketPage b pfx limit ak).1) : li.key ∈ b.map Prod.fst := by
  cases ak with
  | none =>
    change li ∈ (collectKeys pfx limit b 0).1 at h
    exact collectKeys_key_mem pfx limit b 0 li h
  | some a =>
    change li ∈ (collectKeys pfx limit
      (match b.dropWhile (fun kv => keyLt kv.1 a) with
       | [] => []
       | _ :: t => t) 0).1 at h
    cases hd : b.dropWhile (fun kv => keyLt kv.1 a) with
    | nil => rw [hd] at h; simp [collectKeys] at h
    | cons x t =>
      rw [hd] at h
      change li ∈ (collectKeys pfx limit t 0).1 at h
      have ht : li.key ∈ t.map Prod.fst := collectKeys_key_mem pfx limit t 0 li h
      have hx : li.key ∈ (x :: t).map Prod.fst := by
        simp only [List.map_cons, List.mem_cons]; exact Or.inr ht
      rw [← hd] at hx
      exact mem_map_fst_of_mem_dropWhile _ b li.key hx

theorem stepTake_nil (n : Nat) (s : SState) : stepTake n [] s = s := by
  simp [stepTake]

theorem stepTake_of_le (n : Nat) (M : List SItem) (s : SState)
    (h : n ≤ s.count) : stepTake n M s = s := by
  simp [stepTake, Nat.sub_eq_zero_of_le h]

theorem stepTake_singleton (n : Nat) (x : SItem) (s : SState)
    (h : s.count < n) :
    stepTake n [x] s = ⟨s.items ++ [x], s.count + 1⟩ := by
  unfold stepTake
  rw [show n - s.count = (n - s.count - 1) + 1 by omega]
  rw [show List.take ((n - s.count - 1) + 1) [x] = [x] by
    rw [List.take_succ_cons, List.take_nil]]
  rw [show min ((n - s.count - 1) + 1) (List.length [x]) = 1 by
    simp only [List.length_singleton]; omega]

theorem stepTake_append (n : Nat) (M1 M2 : List SItem) (s : SState) :
    stepTake n (M1 ++ M2) s = stepTake n M2 (stepTake n M1 s) := by
  unfold stepTake
  simp only [List.take_append_eq_append_take, List.length_append,
    List.append_assoc, SState.mk.injEq]
  constructor
  · rw [show n - s.count - M1.length
        = n - (s.count + min (n - s.count) M1.length) by omega]
  · omega

theorem searchL_stepTake (n : Nat) (q : List Nat) (cs : Bool) :
    ∀ (m : Nat) (l : EntryList), sizeOf l ≤ m →
      ∀ (path : List (List Nat)) (s : SState),
        searchL n q cs l path s = stepTake n (collectAllMatches q cs l path) s := by
  intro m
  induction m with
  | zero =>
    intro l hl
    exfalso
    cases l with
    | nil => simp at hl
    | cons kv rest => simp at hl
  | succ m ih =>
    intro l hl path s
    match l with
    | [] => simp [searchL, collectAllMatches, stepTake_nil]
    | (k, Entry.val v) :: rest =>
      have hrest : sizeOf rest ≤ m := by
        simp only [List.cons.sizeOf_spec, Prod.mk.sizeOf_spec] at hl
        omega
      rw [searchL, collectAllMatches, stepTake_append, ih rest hrest path _]
      congr 1
      by_cases hc : n ≤ s.count
      · rw [if_pos hc, stepTake_of_le n _ s hc]
      · rw [if_neg hc]
        have hcc : s.count < n := by omega
        by_cases hm : matchesQ cs q k = true
        · rw [if_pos hm, if_pos hm, stepTake_singleton n _ s hcc]
        · rw [if_neg hm, if_neg hm, stepTake_nil]
    | (k, Entry.bkt sub) :: rest =>
      have hsz : 1 + (1 + sizeOf k + (1 + sizeOf sub)) + sizeOf rest ≤ m + 1 := by
        simpa [List.cons.sizeOf_spec, Prod.mk.sizeOf_spec, Entry.bkt.sizeOf_spec]
          using hl
      have hrest : sizeOf rest ≤ m := by omega
      have hsub : sizeOf sub ≤ m := by omega
      rw [searchL, collectAllMatches, stepTake_append, stepTake_append,
        ih rest hrest path _]
      congr 1
      by_cases hc : n ≤ s.count
      · rw [if_pos hc, stepTake_of_le n _ s hc, stepTake_of_le n _ s hc]
      · rw [if_neg hc]
        have hcc : s.count < n := by omega
        by_cases hm : matchesQ cs q k = true
        · rw [if_pos hm, if_pos hm, stepTake_singleton n _ s hcc]
          by_cases hs1 : s.count + 1 < n
          · simp only [hs1, if_true]
            exact ih sub hsub (path ++ [k]) _
          · simp only [hs1, if_false]
            rw [stepTake_of_le n _ _ (by show n ≤ s.count + 1; omega)]
        · rw [if_neg hm, if_neg hm, stepTake_nil]
          simp only [hcc, if_true]
          exact ih sub hsub (path ++ [k]) _

theorem searchRoot_stepTake (n : Nat) (q : List Nat) (cs : Bool) :
    ∀ (l : EntryList) (s : SState),
      searchRoot n q cs l s = stepTake n (collectAllRoot q cs l) s := by
  intro l
  induction l with
  | nil => intro s; simp [searchRoot, collectAllRoot, stepTake_nil]
  | cons kv rest ih =>
    intro s
    obtain ⟨k, e⟩ := kv
    cases e with
    | val v =>
      rw [searchRoot, collectAllRoot, stepTake_append, ih _]
      congr 1
      by_cases hc : n ≤ s.count
      · rw [if_pos hc, stepTake_of_le n _ s hc]
      · rw [if_neg hc]
        have hcc : s.count < n := by omega
        by_cases hm : matchesQ cs q k = true
        · rw [if_pos hm, if_pos hm, stepTake_singleton n _ s hcc]
        · rw [if_neg hm, if_neg hm, stepTake_nil]
    | bkt sub =>
      rw [searchRoot, collectAllRoot, stepTake_append, stepTake_append, ih _]
      congr 1
      by_cases hc : n ≤ s.count
      · rw [if_pos hc, stepTake_of_le n _ s hc, stepTake_of_le n _ s hc]
      · rw [if_neg hc]
        have hcc : s.count < n := by omega
        by_cases hm : matchesQ cs q k = true
        · rw [if_pos hm, if_pos hm, stepTake_singleton n _ s hcc]
          by_cases hs1 : s.count + 1 < n
          · simp only [hs1, if_true]
            exact searchL_stepTake n q cs (sizeOf sub) sub le_rfl [k] _
          · simp only [hs1, if_false]
            rw [stepTake_of_le n _ _ (by show n ≤ s.count + 1; omega)]
        · rw [if_neg hm, if_neg hm, stepTake_nil]
          simp only [hcc, if_true]
          exact searchL_stepTake n q cs (sizeOf sub) sub le_rfl [k] _

/-! ## Claim theorems -/

/-- C1: the claim says chained `listContainer` pages (feeding back
`nextAfterKey`) reproduce the unpaginated full scan with no omissions for
every page limit among 1, total and total+1.  The code violates this: on a container with
keys `a`, `b` and `limit = 1`, page one returns `[a]` with `nextAfterKey = b`
(the first excluded key), and the resumed page seeks to `b`, finds it, and
advances past it, so the chained scan yields `[a]` while the full scan yields
`[a, b]` — the boundary key `b` is silently dropped. -/
theorem c1_chained_pagination_drops_boundary_key :
    (lskChain [([97], Entry.val [1]), ([98], Entry.val [2])] 1 4 none).map
        (fun li => li.key) = [[97]] ∧
    ([([97], Entry.val [1]), ([98], Entry.val [2])].map Prod.fst
        = [[97], [98]]) ∧
    ((lskBucketPage [([97], Entry.val [1]), ([98], Entry.val [2])] [] 2 none).1.map
        (fun li => li.key) = [[97], [98]]) := by
  exact ⟨rfl, rfl, rfl⟩

/-- C2: the claim says the "advance one step past the seek result" is applied
only when the seek found `afterKey` exactly, so a key the seek merely lands on
(absent `afterKey`) is included in the page.  The code advances whenever the
seek returned any key: on a container with keys `a`, `c` and resumption key
`b` (absent), the seek lands on `c` and the code skips it, returning an empty
page even though `c` sorts after `b` and should be the first item. -/
theorem c2_absent_afterkey_skips_landed_key :
    (lskBucketPage [([97], Entry.val [1]), ([99], Entry.val [2])] [] 10
        (some [98])) = ([], none) ∧
    keyLt [98] [99] = true := by
  exact ⟨rfl, rfl⟩

/-- C3: the claim says `put("", k, v)` and `readHead("", k, n)` both fail with
`InvalidOperation` and never produce a success payload.  `put` does fail, but
`readHead` at the root only constructs its error inside the discarded
`db.View` result: the process prints the success payload
`totalSize = 0, headBytes = empty` and exits 0. -/
theorem c3_root_readhead_reports_success :
    getRun [([97], Entry.bkt [])] [] [107] 5 = some ⟨0, []⟩ ∧
    putKeyValue [([97], Entry.bkt [])] [] [107] [118]
      = some (.error (.msg "cannot put key-value at root level")) := by
  exact ⟨rfl, rfl⟩

/-- C4: the claim says every item of `listRoot(prefix, limit, afterKey)` has a
name strictly greater than `afterKey`, and in particular the listing is empty
when `afterKey` is at least every root container name.  The code's start-index
scan falls back to index 0 when no name is strictly greater than `afterKey`:
with a single root container `a` and `afterKey = b`, the listing returns the
item `a` even though `a` is not greater than `b`. -/
theorem c4_root_listing_ignores_large_afterkey :
    (lskRoot [([97], Entry.bkt [])] [] 1000 (some [98])).items
      = [⟨[97], 0, true⟩] ∧
    keyLt [98] [97] = false := by
  exact ⟨rfl, rfl⟩

/-- C5: for every non-empty path resolving to a container, after
`put(p, k, v)` succeeds, `readHead(p, k, n)` returns `totalSize = len(v)` and
`headBytes` equal to the first `min(n, len(v))` bytes of `v`; in particular
the head has exactly length `n` when `n < len(v)` and equals `v` when
`n = len(v)`, while `totalSize` always reports the full length. -/
theorem c5_put_then_readhead (st : EntryList) (path : List (List Nat))
    (k v : List Nat) (n : Nat) (st' : EntryList)
    (hput : putKeyValue st path k v = some (.ok st')) :
    getRun st' path k n = some ⟨v.length, v.take n⟩ ∧
      (v.take n).length = min n v.length := by
  by_cases hk : k = []
  · rw [putKeyValue, if_pos hk] at hput
    exact absurd hput (by simp)
  by_cases hv : v = []
  · rw [putKeyValue, if_neg hk, if_pos hv] at hput
    exact absurd hput (by simp)
  cases path with
  | nil =>
    rw [putKeyValue, if_neg hk, if_neg hv] at hput
    simp at hput
  | cons p rest =>
    rw [putKeyValue, if_neg hk, if_neg hv] at hput
    simp only [List.isEmpty_cons, Bool.false_eq_true, if_false] at hput
    rw [bucketAtPath] at hput
    cases hres : getAtPath st (p :: rest) with
    | none => rw [hres] at hput; simp at hput
    | some b =>
      rw [hres] at hput
      change (match putE b k v with
        | Except.error e => some (Except.error e)
        | Except.ok b' => some (Except.ok (writeBackB st (p :: rest) b')))
          = some (Except.ok st') at hput
      cases hpe : putE b k v with
      | error e => rw [hpe] at hput; simp at hput
      | ok b' =>
        rw [hpe] at hput
        simp only [Option.some.injEq, Except.ok.injEq] at hput
        have hb' : b' = insE b k (Entry.val v) := by
          rw [putE, if_neg hk] at hpe
          cases hlk : lookupEnt b k with
          | none => rw [hlk] at hpe; simp at hpe; exact hpe.symm
          | some e0 =>
            cases e0 with
            | val v0 => rw [hlk] at hpe; simp at hpe; exact hpe.symm
            | bkt s0 => rw [hlk] at hpe; simp at hpe
        have hres' : getAtPath st' (p :: rest) = some b' := by
          rw [← hput]
          exact getAtPath_writeBack (p :: rest) st b b' hres
        have hbg : bucketGet b' k = some v := by
          rw [hb', bucketGet, lookupEnt_insE_self]
        constructor
        · rw [getRun]
          simp only [List.isEmpty_cons, Bool.false_eq_true, if_false]
          rw [bucketAtPath, hres']
          change (some ⟨match bucketGet b' k with
                        | some w => w.length
                        | none => 0,
                        match bucketGet b' k with
                        | some w => if n < w.length then w.take n else w
                        | none => []⟩ : Option HeadResult)
            = some ⟨v.length, v.take n⟩
          rw [hbg]
          change (some ⟨v.length, if n < v.length then v.take n else v⟩
              : Option HeadResult)
            = some ⟨v.length, v.take n⟩
          by_cases hn : n < v.length
          · simp only [if_pos hn]
          · simp only [if_neg hn]
            rw [List.take_of_length_le (by omega)]
        · rw [List.length_take]

/-- Closed instance of `c5_put_then_readhead`: putting the two-byte value
`[118, 119]` under key `[107]` in container `[97]` and reading a one-byte
head returns total size 2 and head `[118]`. -/
theorem c5_witness :
    getRun [([97], Entry.bkt [([107], Entry.val [118, 119])])] [[97]] [107] 1
      = some ⟨2, [118]⟩ ∧
    ([118, 119].take 1).length = min 1 ([118, 119] : List Nat).length :=
  c5_put_then_readhead [([97], Entry.bkt [])] [[97]] [107] [118, 119] 1
    [([97], Entry.bkt [([107], Entry.val [118, 119])])] rfl

/-- C6: `createContainer` on a path of depth at least 2 fails when the parent
path does not resolve ("parent bucket not found", a NotFound), and fails with
the store's duplicate-name error `ErrBucketExists` surfaced unchanged when a
container of that name already exists; concretely, `createContainer("a/b")`
fails NotFound while `"a"` is missing, succeeds once `"a"` has been created,
and a second `createContainer("a/b")` fails with the conflict. -/
theorem c6_create_container (st : EntryList) (p q : List Nat)
    (rest : List (List Nat)) :
    (bucketAtPath st (p :: (q :: rest).dropLast) = some none →
      createBucket st (p :: q :: rest)
        = some (.error (.msg "parent bucket not found"))) ∧
    (∀ pb sub, bucketAtPath st (p :: (q :: rest).dropLast) = some (some pb) →
      (q :: rest).getLastD q ≠ [] →
      lookupEnt pb ((q :: rest).getLastD q) = some (Entry.bkt sub) →
      createBucket st (p :: q :: rest) = some (.error .bucketExists)) ∧
    (createBucket ([] : EntryList) [[97], [98]]
        = some (.error (.msg "parent bucket not found")) ∧
     createBucket ([] : EntryList) [[97]] = some (.ok [([97], Entry.bkt [])]) ∧
     createBucket [([97], Entry.bkt [])] [[97], [98]]
        = some (.ok [([97], Entry.bkt [([98], Entry.bkt [])])]) ∧
     createBucket [([97], Entry.bkt [([98], Entry.bkt [])])] [[97], [98]]
        = some (.error .bucketExists)) := by
  refine ⟨?_, ?_, rfl, rfl, rfl, rfl⟩
  · intro h
    rw [createBucket, h]
  · intro pb sub hres hne hlk
    have hce : createE pb ((q :: rest).getLastD q) = .error .bucketExists := by
      rw [createE, if_neg hne, hlk]
    rw [createBucket, hres]
    change (match createE pb ((q :: rest).getLastD q) with
      | Except.error e => some (Except.error e)
      | Except.ok pb' =>
        some (Except.ok (writeBackB st (p :: (q :: rest).dropLast) pb')))
        = some (Except.error WErr.bucketExists)
    rw [hce]

/-- Closed instance of the conflict clause of `c6_create_container`: creating
`a/b` when `a` already contains a bucket `b` fails with the store's
duplicate-name error. -/
theorem c6_witness :
    createBucket [([97], Entry.bkt [([98], Entry.bkt [])])] [[97], [98]]
      = some (.error .bucketExists) :=
  (c6_create_container [([97], Entry.bkt [([98], Entry.bkt [])])] [97] [98]
    []).2.1 [([98], Entry.bkt [])] [] rfl (by decide) rfl

/-- C7 counterexample: the claim says `deleteEntry(p, k)` succeeds for every
key `k` of a resolving container and the subsequent listing never returns
`k`.  When `k` names a nested container, the store's `Delete` rejects it with
`ErrIncompatibleValue`, the operation fails, and the unchanged container's
listing still returns `k`. -/
theorem c7_counterexample :
    deleteKey [([97], Entry.bkt [([98], Entry.bkt [])])] [[97]] [98]
      = some (.error .incompatibleValue) ∧
    (lskBucketPage [([98], Entry.bkt [])] [] 1000 none).1.map
        (fun li => li.key) = [[98]] := by
  exact ⟨rfl, rfl⟩

/-- C7, amended: for every container path that resolves and every non-empty
key `k` that does not name a nested container, `deleteEntry(p, k)` succeeds
even when `k` is absent (idempotent no-op), the container listed afterwards
never returns `k` on any page, and when `k` was absent the store is unchanged.
(When `k` names a nested container the operation instead fails with the
store's incompatible-value error, see the counterexample.) -/
theorem c7_delete_entry_amended (st : EntryList) (path : List (List Nat))
    (k : List Nat) (b : EntryList)
    (hk : k ≠ [])
    (hres : bucketAtPath st path = some (some b))
    (hnb : entryIsBktO (lookupEnt b k) = false)
    (hnd : (b.map Prod.fst).Nodup) :
    ∃ st' b', deleteKey st path k = some (.ok st') ∧
      bucketAtPath st' path = some (some b') ∧
      lookupEnt b' k = none ∧
      (∀ pfx limit ak li, li ∈ (lskBucketPage b' pfx limit ak).1 →
        li.key ≠ k) ∧
      (lookupEnt b k = none → st' = st) := by
  cases path with
  | nil => simp [bucketAtPath] at hres
  | cons p rest =>
    rw [bucketAtPath] at hres
    simp only [Option.some.injEq] at hres
    cases hlk : lookupEnt b k with
    | none =>
      refine ⟨st, b, ?_, ?_, hlk, ?_, fun _ => rfl⟩
      · rw [deleteKey, if_neg hk]
        simp only [List.isEmpty_cons, Bool.false_eq_true, if_false]
        rw [bucketAtPath, hres]
        have hde : delE b k = .ok b := by rw [delE, hlk]
        change (match delE b k with
          | Except.error e => some (Except.error e)
          | Except.ok b' => some (Except.ok (writeBackB st (p :: rest) b')))
            = some (Except.ok st)
        rw [hde]
        change some (Except.ok (writeBackB st (p :: rest) b))
          = some (Except.ok st)
        rw [writeBackB_self (p :: rest) st b hres]
      · rw [bucketAtPath, hres]
      · intro pfx limit ak li hmem heq
        have h1 : li.key ∈ b.map Prod.fst :=
          lskBucketPage_key_mem b pfx limit ak li hmem
        have h2 : k ∉ b.map Prod.fst := (lookupEnt_eq_none_iff b k).mp hlk
        rw [heq] at h1
        exact h2 h1
    | some e0 =>
      cases e0 with
      | bkt s0 =>
        rw [hlk] at hnb
        change true = false at hnb
        exact Bool.noConfusion hnb
      | val v0 =>
        refine ⟨writeBackB st (p :: rest) (removeKey b k), removeKey b k,
          ?_, ?_, lookupEnt_removeKey_self b k hnd, ?_, ?_⟩
        · rw [deleteKey, if_neg hk]
          simp only [List.isEmpty_cons, Bool.false_eq_true, if_false]
          rw [bucketAtPath, hres]
          have hde : delE b k = .ok (removeKey b k) := by rw [delE, hlk]
          change (match delE b k with
            | Except.error e => some (Except.error e)
            | Except.ok b' => some (Except.ok (writeBackB st (p :: rest) b')))
              = some (Except.ok (writeBackB st (p :: rest) (removeKey b k)))
          rw [hde]
        · rw [bucketAtPath,
            getAtPath_writeBack (p :: rest) st b (removeKey b k) hres]
        · intro pfx limit ak li hmem heq
          have h1 : li.key ∈ (removeKey b k).map Prod.fst :=
            lskBucketPage_key_mem (removeKey b k) pfx limit ak li hmem
          have h2 : k ∉ (removeKey b k).map Prod.fst :=
            (lookupEnt_eq_none_iff (removeKey b k) k).mp
              (lookupEnt_removeKey_self b k hnd)
          rw [heq] at h1
          exact h2 h1
        · intro habs
          exact Option.noConfusion habs

/-- Closed instance of `c7_delete_entry_amended`: deleting the plain value key
`[107]` from container `[97]` succeeds and the key is gone from the listing. -/
theorem c7_witness :
    ∃ st' b',
      deleteKey [([97], Entry.bkt [([107], Entry.val [5])])] [[97]] [107]
        = some (.ok st') ∧
      bucketAtPath st' [[97]] = some (some b') ∧
      lookupEnt b' [107] = none ∧
      (∀ pfx limit ak li, li ∈ (lskBucketPage b' pfx limit ak).1 →
        li.key ≠ [107]) ∧
      (lookupEnt [([107], Entry.val [5])] [107] = none →
        st' = [([97], Entry.bkt [([107], Entry.val [5])])]) :=
  c7_delete_entry_amended [([97], Entry.bkt [([107], Entry.val [5])])] [[97]]
    [107] [([107], Entry.val [5])] (by decide) rfl rfl (by decide)

/-- C8: `search(query, limit, caseSensitive)` returns at most `limit` items;
its item list is exactly the first `limit` matches of the unbounded pre-order
traversal — the observable form of "stops issuing further work as soon as the
running match count reaches `limit`", since every deeper or later match is cut
off mid-container; and `limited = true` iff the returned count equals
`limit`. -/
theorem c8_search_limit_cutoff (st : EntryList) (q : List Nat) (n : Nat)
    (cs : Bool) :
    (searchRun st q n cs).items.length ≤ n ∧
    (searchRun st q n cs).items
      = (collectAllRoot (if cs then q else lowerBytes q) cs st).take n ∧
    ((searchRun st q n cs).limited = true ↔
      (searchRun st q n cs).items.length = n) := by
  have hitems : (searchRun st q n cs).items
      = (collectAllRoot (if cs then q else lowerBytes q) cs st).take n := by
    show (searchRoot n (if cs then q else lowerBytes q) cs st ⟨[], 0⟩).items = _
    rw [searchRoot_stepTake n (if cs then q else lowerBytes q) cs st ⟨[], 0⟩]
    show ([] : List SItem) ++
        (collectAllRoot (if cs then q else lowerBytes q) cs st).take (n - 0) = _
    rw [List.nil_append, Nat.sub_zero]
  have hub : (searchRun st q n cs).items.length ≤ n := by
    rw [hitems]
    exact List.length_take_le _ _
  refine ⟨hub, hitems, ?_, ?_⟩
  · intro hd
    have hd' : decide (n ≤ (searchRun st q n cs).items.length) = true := hd
    have hle := of_decide_eq_true hd'
    omega
  · intro he
    show decide (n ≤ (searchRun st q n cs).items.length) = true
    exact decide_eq_true (by omega)

/-- The export row list is the prefix-filtered direct entries, mapped to rows. -/
theorem rowsOf_eq (path : List (List Nat)) (pfx : List Nat) (b : EntryList) :
    rowsOf path pfx b
      = (b.filter fun kv => decide (pfx = []) || startsWithB pfx kv.1).map
          (fun kv => (⟨path, kv.1, entryBytes kv.2⟩ : ExpRow)) := by
  induction b with
  | nil => rfl
  | cons kv rest ih =>
    unfold rowsOf at ih ⊢
    by_cases hp : pfx = []
    · simp [List.filterMap_cons, List.filter_cons, hp] at ih ⊢
      exact ih
    · cases hsw : startsWithB pfx kv.1 with
      | true =>
        simp [List.filterMap_cons, List.filter_cons, hp, hsw] at ih ⊢
        exact ih
      | false =>
        simp [List.filterMap_cons, List.filter_cons, hp, hsw] at ih ⊢
        exact ih

/-- Sortedness of the direct entries carries over to the exported rows. -/
theorem rowsOf_pairwise (path : List (List Nat)) (pfx : List Nat)
    (b : EntryList)
    (hs : List.Pairwise (fun x y : List Nat × Entry => keyLt x.1 y.1 = true) b) :
    List.Pairwise (fun r r' : ExpRow => keyLt r.key r'.key = true)
      (rowsOf path pfx b) := by
  rw [rowsOf_eq]
  exact List.Pairwise.map _ (fun a b h => h) (List.Pairwise.filter _ hs)

/-- C9 counterexample: the claim says `export(path, prefix, sink)` streams one
record for every entry of the entire subtree, including entries inside nested
containers at every depth.  The code never recurses: exporting container `a`,
which holds a nested container `b` that itself holds the value entry `c`,
emits exactly one record — for `b`, with empty value bytes — and no record for
the depth-2 entry `c`. -/
theorem c9_counterexample :
    exportRun [([97], Entry.bkt [([98], Entry.bkt [([99], Entry.val [7])])])]
        [[97]] []
      = some [⟨[[97]], [98], []⟩] ∧
    (∀ r ∈ ([⟨[[97]], [98], []⟩] : List ExpRow), r.key ≠ [99]) := by
  refine ⟨rfl, ?_⟩
  intro r hr
  simp only [List.mem_singleton] at hr
  rw [hr]
  decide

/-- C9, amended: for every resolvable path and optional prefix, `export`
streams one record `(path, key, value)` per DIRECT entry of the resolved
container whose key matches the prefix, in the container's key order (nested
containers appear as single records with empty value bytes and are not
recursed into). -/
theorem c9_export_direct_entries (st : EntryList) (path : List (List Nat))
    (pfx : List Nat) :
    (exportRun st [] pfx
      = some ((st.filter fun kv => decide (pfx = []) || startsWithB pfx kv.1).map
          (fun kv => (⟨[], kv.1, entryBytes kv.2⟩ : ExpRow)))) ∧
    (∀ b, bucketAtPath st path = some (some b) →
      exportRun st path pfx
        = some ((b.filter fun kv =>
              decide (pfx = []) || startsWithB pfx kv.1).map
            (fun kv => (⟨path, kv.1, entryBytes kv.2⟩ : ExpRow)))) ∧
    (∀ b, bucketAtPath st path = some (some b) →
      List.Pairwise (fun x y : List Nat × Entry => keyLt x.1 y.1 = true) b →
      List.Pairwise (fun r r' : ExpRow => keyLt r.key r'.key = true)
        ((exportRun st path pfx).getD [])) := by
  have hroot : exportRun st [] pfx = some (rowsOf [] pfx st) := rfl
  have hbkt : ∀ b, bucketAtPath st path = some (some b) →
      exportRun st path pfx = some (rowsOf path pfx b) := by
    intro b hres
    cases path with
    | nil => simp [bucketAtPath] at hres
    | cons p rest =>
      rw [bucketAtPath] at hres
      simp only [Option.some.injEq] at hres
      rw [exportRun]
      simp only [List.isEmpty_cons, Bool.false_eq_true, if_false]
      rw [bucketAtPath, hres]
  refine ⟨?_, ?_, ?_⟩
  · rw [hroot, rowsOf_eq]
  · intro b hres
    rw [hbkt b hres, rowsOf_eq]
  · intro b hres hs
    rw [hbkt b hres]
    exact rowsOf_pairwise path pfx b hs

/-- Closed instance of `c9_export_direct_entries`: exporting container `a`
with a value entry and a nested-container entry yields exactly the two direct
records, in key order, with empty bytes for the container entry. -/
theorem c9_witness :
    exportRun [([97], Entry.bkt [([98], Entry.val [5]), ([99], Entry.bkt [])])]
        [[97]] []
      = some [⟨[[97]], [98], [5]⟩, ⟨[[97]], [99], []⟩] :=
  (c9_export_direct_entries
      [([97], Entry.bkt [([98], Entry.val [5]), ([99], Entry.bkt [])])]
      [[97]] []).2.1 [([98], Entry.val [5]), ([99], Entry.bkt [])] rfl

/-- The path resolver panics exactly on the empty path. -/
theorem bucketAtPath_eq_none_iff (st : EntryList) (path : List (List Nat)) :
    bucketAtPath st path = none ↔ path = [] := by
  cases path <;> simp [bucketAtPath]

/-- C10: `BucketAtPath` unconditionally indexes the first path segment — on
the empty path it would go out of bounds (modelled as the outer `none`) — and
every operation guards it: each caller either takes a dedicated root branch on
the empty path or hands the resolver a non-empty segment list, so no operation
ever reaches the out-of-bounds case (every operation's model is `isSome` on
all inputs). -/
theorem c10_resolver_guard (st : EntryList) (path segs : List (List Nat))
    (pfx k v q : List Nat) (limit n : Nat) (afterKey : Option (List Nat))
    (cs : Bool) (s : SState) :
    bucketAtPath st [] = none ∧
    (lskRun st path pfx limit afterKey).isSome = true ∧
    (getRun st path k n).isSome = true ∧
    (putKeyValue st path k v).isSome = true ∧
    (deleteKey st path k).isSome = true ∧
    (createBucket st segs).isSome = true ∧
    (deleteBucket st segs).isSome = true ∧
    (exportRun st path pfx).isSome = true ∧
    (searchRecursiveM st path q n cs s).isSome = true := by
  refine ⟨rfl, ?_, ?_, ?_, ?_, ?_, ?_, ?_, ?_⟩
  · unfold lskRun
    repeat' split
    all_goals simp_all [bucketAtPath_eq_none_iff, List.isEmpty_iff]
  · unfold getRun
    repeat' split
    all_goals simp_all [bucketAtPath_eq_none_iff, List.isEmpty_iff]
  · unfold putKeyValue
    repeat' split
    all_goals simp_all [bucketAtPath_eq_none_iff, List.isEmpty_iff]
  · unfold deleteKey
    repeat' split
    all_goals simp_all [bucketAtPath_eq_none_iff, List.isEmpty_iff]
  · cases segs with
    | nil => rfl
    | cons p1 segs2 =>
      cases segs2 with
      | nil => rfl
      | cons q1 rest1 =>
        simp only [createBucket]
        rw [bucketAtPath]
        cases hg : getAtPath st (p1 :: (q1 :: rest1).dropLast) with
        | none => rfl
        | some pb =>
          change (match createE pb ((q1 :: rest1).getLastD q1) with
            | Except.error e => some (Except.error e)
            | Except.ok pb' =>
              some (Except.ok (writeBackB st (p1 :: (q1 :: rest1).dropLast) pb'))
            : Option (Except WErr EntryList)).isSome = true
          cases hce : createE pb ((q1 :: rest1).getLastD q1) with
          | error e => rfl
          | ok pb' => rfl
  · cases segs with
    | nil => rfl
    | cons p1 segs2 =>
      cases segs2 with
      | nil => rfl
      | cons q1 rest1 =>
        simp only [deleteBucket]
        rw [bucketAtPath]
        cases hg : getAtPath st (p1 :: (q1 :: rest1).dropLast) with
        | none => rfl
        | some pb =>
          change (match delBkt pb ((q1 :: rest1).getLastD q1) with
            | Except.error e => some (Except.error e)
            | Except.ok pb' =>
              some (Except.ok (writeBackB st (p1 :: (q1 :: rest1).dropLast) pb'))
            : Option (Except WErr EntryList)).isSome = true
          cases hce : delBkt pb ((q1 :: rest1).getLastD q1) with
          | error e => rfl
          | ok pb' => rfl
  · unfold exportRun
    repeat' split
    all_goals simp_all [bucketAtPath_eq_none_iff, List.isEmpty_iff]
  · unfold searchRecursiveM
    repeat' split
    all_goals simp_all [bucketAtPath_eq_none_iff, List.isEmpty_iff]

end BoltExplorer
